import Mathlib

/-!
Verification of the lfind incremental index synchronization engine and
multi-stage retrieval pipeline, as a shallow embedding of the Python source
(src/lfind/db_manager.py, src/lfind/search_pipeline.py, src/lfind/llm_service.py,
src/lfind/embedding/service.py, src/lfind/embedding/registry.py,
src/lfind/embed_manager.py).

Modelling conventions:
- The SQLite files table is a list of typed rows plus the autoincrement counter.
  The UNIQUE constraint on absolute_path is carried as a Nodup hypothesis where
  a proof needs it.
- Timestamps and sizes are integers; the datetime round-trip comparison in
  touch_file (fromisoformat of the stored value vs the fresh stat) is
  value equality on Option Int, with none for NULL columns.
- os.stat is a function from paths to Option Stat: none is a stat failure
  (OSError / FileNotFoundError), which touch_file turns into a skip.
- External collaborators, per the component boundary of the spec, are fields of Env:
  the query-embedding model call (embedQuery, whose exceptions are NOT caught at
  the call site in search_semantic, hence Except), the per-file embedding
  retrieval (embedFile, whose implementation in EmbeddingService.embed_file
  catches every exception and returns None, hence Option), the LLM chat
  completion (llmComplete; LLMClient.complete catches every exception and
  returns the empty string, hence Option with getD ""), and the persistent
  FAISS index contents (persistentIndex, vectors addressed by their insertion
  position, which is exactly the integer handle FAISS returns).
- The FAISS flat inner-product index search is modelled deterministically:
  every stored vector is scored by dot product with the query and the
  (position, score) pairs are ranked by descending score, ties by ascending
  position. sqlite errors inside DatabaseManager query helpers are modelled by
  the dbOk flag: the source catches sqlite3.Error and returns [] / None, so a
  broken store yields empty query results, never an exception.
-/

namespace Lfind

/-- Result of os.stat for a path: size and the two timestamps used. -/
structure Stat where
  size : Int
  ctime : Int
  mtime : Int
deriving DecidableEq

/-- The file_data dict handed to DatabaseManager.touch_file by the walker. -/
structure FileData where
  name : String
  absolutePath : String
  ftype : String
deriving DecidableEq

/-- One row of the files table (db_manager.py schema). -/
structure FileRec where
  id : Nat
  name : String
  absolutePath : String
  ftype : String
  extension : Option String
  size : Option Int
  createdAt : Option Int
  modifiedAt : Option Int
  lastIndexedAt : Option Int
  embeddingId : Option Nat
  embeddingType : Option String
  seen : Bool
deriving DecidableEq

/-- The files table: rows plus the AUTOINCREMENT counter. -/
structure DbState where
  records : List FileRec
  nextId : Nat
deriving DecidableEq

/-- Index of the last dot character of a name, if any. -/
def lastDotIdx (cs : List Char) : Option Nat :=
  ((cs.enum.filter (fun p => p.2 == '.')).map (fun p => p.1)).getLast?

/-- The extension part of os.path.splitext: looking only at the basename (the
part after the last separator), the suffix starting at the last dot, provided
some earlier basename character is not a dot (so dotfiles like .bashrc have no
extension). -/
def splitextExt (name : String) : String :=
  let base := ((name.toList.reverse.takeWhile (fun c => c != '/')).reverse)
  match lastDotIdx base with
  | none => ""
  | some i =>
    if (base.take i).any (fun c => c != '.') then String.mk (base.drop i) else ""

/-- The extension column value computed by touch_file: lower-cased splitext extension, NULL
when empty (extension = extension.lower() if extension else None). -/
def normExt (name : String) : Option String :=
  let e := splitextExt name
  if e = "" then none else some e.toLower

/-- DatabaseManager.reset_seen_flags: UPDATE files SET seen = 0. -/
def resetSeenFlags (s : DbState) : DbState :=
  { s with records := s.records.map (fun r => { r with seen := false }) }

/-- DatabaseManager.delete_missing_files: DELETE FROM files WHERE seen = 0,
returning the new state and the deleted row count. -/
def deleteMissingFiles (s : DbState) : DbState × Nat :=
  let kept := s.records.filter (fun r => r.seen)
  ({ s with records := kept }, s.records.length - kept.length)

/-- DatabaseManager.touch_file. Stats the path (skip with False on failure),
then inserts a new seen row, updates a stale row, or just marks the row seen,
returning the requires_update flag and the new table state. -/
def touchFile (fs : String → Option Stat) (now : Int) (fd : FileData) (s : DbState) :
    Bool × DbState :=
  match fs fd.absolutePath with
  | none => (false, s)
  | some st =>
    match s.records.find? (fun r => r.absolutePath == fd.absolutePath) with
    | none =>
      (true,
        { records := s.records ++ [{
            id := s.nextId
            name := fd.name
            absolutePath := fd.absolutePath
            ftype := fd.ftype
            extension := normExt fd.name
            size := some st.size
            createdAt := some st.ctime
            modifiedAt := some st.mtime
            lastIndexedAt := some now
            embeddingId := none
            embeddingType := none
            seen := true }]
          nextId := s.nextId + 1 })
    | some row =>
      if row.modifiedAt ≠ some st.mtime ∨ row.size ≠ some st.size then
        (true,
          { s with records := s.records.map (fun r =>
              if r.absolutePath == fd.absolutePath then
                { r with
                  name := fd.name
                  ftype := fd.ftype
                  extension := normExt fd.name
                  size := some st.size
                  createdAt := some st.ctime
                  modifiedAt := some st.mtime
                  lastIndexedAt := some now
                  seen := true }
              else r) })
      else
        (false,
          { s with records := s.records.map (fun r =>
              if r.absolutePath == fd.absolutePath then { r with seen := true } else r) })

/-- The touch phase of one synchronization pass: touch_file for each walked entry. -/
def foldTouch (fs : String → Option Stat) (now : Int) (fds : List FileData) (s : DbState) :
    DbState :=
  fds.foldl (fun acc fd => (touchFile fs now fd acc).2) s

/-- A full mark-and-sweep pass: reset_seen_flags, touch_file for each walked
entry, delete_missing_files. -/
def runPass (fs : String → Option Stat) (now : Int) (fds : List FileData) (s : DbState) :
    DbState :=
  (deleteMissingFiles (foldTouch fs now fds (resetSeenFlags s))).1

/-- directory.rstrip of the path separator, as used by get_files_by_criteria. -/
def rstripSlash (s : String) : String :=
  String.mk ((s.toList.reverse.dropWhile (fun c => c == '/')).reverse)

/-- The collaborators of one SearchPipeline instance. store/dbOk model the
DatabaseManager (dbOk = false means every SQL statement raises sqlite3.Error,
which the query helpers catch, returning [] or None); embedQuery is the
embedding model call made by EmbeddingService.embed_query, whose exception is
not caught in search_semantic; embedFile is EmbeddingService.embed_file, which
catches every failure and returns None; persistentIndex is the full FAISS
index (a vector per integer handle, in insertion order); llmComplete is the
LLM chat call selected by use_hard_model, none meaning the API call raised
(LLMClient.complete catches this and returns the empty string). -/
structure Env where
  store : List FileRec
  dbOk : Bool
  embedQuery : String → Except Unit (List Int)
  embedFile : String → Option (List Int)
  persistentIndex : List (List Int)
  llmComplete : Bool → String → Option String

/-- DatabaseManager.get_files_by_criteria: AND-combination of the optional
predicates, honouring the Python truthiness guards (empty string directory,
empty extension list and empty file_type apply no filter) and SQL
NULL semantics (a NULL column never satisfies IN or a comparison). On
sqlite3.Error the source returns []. -/
def getFilesByCriteria (env : Env) (directory : Option String)
    (extensions : Option (List String)) (fileType : Option String)
    (minSize maxSize : Option Int) (modifiedAfter modifiedBefore : Option Int) :
    List FileRec :=
  if env.dbOk then
    env.store.filter (fun r =>
      (match directory with
       | none => true
       | some d =>
         if d = "" then true else (rstripSlash d ++ "/").isPrefixOf r.absolutePath)
      && (match extensions with
          | none => true
          | some es =>
            if es = [] then true
            else match r.extension with
                 | some e => es.contains e
                 | none => false)
      && (match fileType with
          | none => true
          | some t => if t = "" then true else r.ftype == t)
      && (match minSize with
          | none => true
          | some m => match r.size with
                      | some sz => m ≤ sz
                      | none => false)
      && (match maxSize with
          | none => true
          | some m => match r.size with
                      | some sz => sz ≤ m
                      | none => false)
      && (match modifiedAfter with
          | none => true
          | some t => match r.modifiedAt with
                      | some mt => t ≤ mt
                      | none => false)
      && (match modifiedBefore with
          | none => true
          | some t => match r.modifiedAt with
                      | some mt => mt ≤ t
                      | none => false))
  else []

/-- DatabaseManager.get_file_by_id (None on sqlite3.Error or no row). -/
def getFileById (env : Env) (i : Nat) : Option FileRec :=
  if env.dbOk then env.store.find? (fun r => r.id == i) else none

/-- Inner product of two embedding vectors (the ip metric of EmbedManager). -/
def dot (a b : List Int) : Int :=
  (List.zipWith (fun x y => x * y) a b).sum

/-- Ranking order of FAISS flat-index results: higher score first, ties by
ascending index position. -/
def rankLE (p q : Nat × Int) : Prop :=
  q.2 < p.2 ∨ (p.2 = q.2 ∧ p.1 ≤ q.1)

instance rankLE.instDecidable (p q : Nat × Int) : Decidable (rankLE p q) := by
  unfold rankLE
  exact inferInstance

/-- Insert one scored pair into a ranked list. -/
def insertRanked (p : Nat × Int) : List (Nat × Int) → List (Nat × Int)
  | [] => [p]
  | q :: rest => if rankLE p q then p :: q :: rest else q :: insertRanked p rest

/-- Sort scored pairs by descending score, ties by ascending index. -/
def sortRanked : List (Nat × Int) → List (Nat × Int)
  | [] => []
  | p :: rest => insertRanked p (sortRanked rest)

/-- Model of EmbedManager.search on a flat ip index: score every stored
vector against the query, rank by descending score (ties by ascending stored
position, the integer handle) and return the first k (handle, score) pairs. -/
def faissSearch (stored : List (List Int)) (q : List Int) (k : Nat) : List (Nat × Int) :=
  (sortRanked ((List.range stored.length).map (fun i => (i, dot (stored.getD i []) q)))).take k

/-- The params dict recorded with each history entry, per stage. -/
inductive SearchParams where
  | extension (extensions : List String) (directory : Option String)
  | semantic (topK : Nat) (directory : Option String) (extensions : Option (List String))
  | llm (directory : Option String) (extensions : Option (List String)) (useHardModel : Bool)
  | multi (directory : Option String) (extensions : Option (List String))
      (useSemantic useLlm useHardLlm : Bool) (topK : Nat)
deriving DecidableEq

/-- One entry of SearchPipeline.search_history (add_to_history). -/
structure HistoryEntry where
  query : String
  results : List FileRec
  searchType : String
  params : SearchParams
  resultCount : Nat
deriving DecidableEq

/-- The history entry search_semantic appends. -/
def semanticEntry (q : String) (topK : Nat) (directory : Option String)
    (extensions : Option (List String)) (results : List FileRec) : HistoryEntry :=
  { query := q
    results := results
    searchType := "semantic"
    params := SearchParams.semantic topK directory extensions
    resultCount := results.length }

/-- The history entry search_llm appends. -/
def llmEntry (q : String) (directory : Option String) (extensions : Option (List String))
    (useHard : Bool) (results : List FileRec) : HistoryEntry :=
  { query := q
    results := results
    searchType := "llm"
    params := SearchParams.llm directory extensions useHard
    resultCount := results.length }

/-- The history entry multi_search appends. -/
def multiEntry (q : String) (directory : Option String)
    (extensions : Option (List String)) (useSemantic useLlm useHardLlm : Bool)
    (topK : Nat) (results : List FileRec) : HistoryEntry :=
  { query := q
    results := results
    searchType := "multi"
    params := SearchParams.multi directory extensions useSemantic useLlm useHardLlm topK
    resultCount := results.length }

/-- The history entry filter_by_extension appends. -/
def extensionEntry (exts : List String) (directory : Option String)
    (results : List FileRec) : HistoryEntry :=
  { query := "extension:" ++ String.intercalate "," exts
    results := results
    searchType := "extension"
    params := SearchParams.extension exts directory
    resultCount := results.length }

/-- The (embedding vector, file id) pairs collected for the temporary index in
the limited-index branch of search_semantic: candidates with a non-NULL
embedding_id whose embedding retrieval succeeds, in candidate order. -/
def matchedList (env : Env) (pr : List FileRec) : List (List Int × Nat) :=
  pr.filterMap (fun r =>
    if r.embeddingId.isSome then
      (env.embedFile r.absolutePath).map (fun v => (v, r.id))
    else none)

/-- The limited-index (scoped) sub-strategy of search_semantic: build a
temporary index over the matched candidate embeddings, search it with
k = min(top_k, len(embeddings)), and map ranked positions back to the first
candidate record carrying the matched file id. -/
def scopedStrategy (env : Env) (qe : List Int) (topK : Nat) (pr : List FileRec) :
    List FileRec :=
  let matched := matchedList env pr
  let ranked := faissSearch (matched.map (fun m => m.1)) qe (min topK matched.length)
  ranked.filterMap (fun p =>
    (matched.get? p.1).bind (fun m => pr.find? (fun r => r.id == m.2)))

/-- The limited-index branch of search_semantic including its early returns (which
skip the history append) and the history append on the normal path. -/
def scopedPath (env : Env) (qe : List Int) (q : String) (topK : Nat)
    (directory : Option String) (extensions : Option (List String))
    (pr : List FileRec) (st : List HistoryEntry) :
    List FileRec × List HistoryEntry :=
  let fileIds := pr.map (fun r => r.id)
  if fileIds.isEmpty then ([], st)
  else
    let matched := matchedList env pr
    if matched.isEmpty then ([], st)
    else
      let results := scopedStrategy env qe topK pr
      (results, st ++ [semanticEntry q topK directory extensions results])

/-- The scoped branch of search_semantic as invoked: embed the query, then run
the limited-index path. -/
def scopedRun (env : Env) (q : String) (topK : Nat) (directory : Option String)
    (extensions : Option (List String)) (pr : List FileRec) (st : List HistoryEntry) :
    Except Unit (List FileRec × List HistoryEntry) := do
  let qe ← env.embedQuery q
  pure (scopedPath env qe q topK directory extensions pr st)

/-- Candidate selection of the post-filtering branch of search_semantic: the given
previous results if non-empty, else a fresh file-typed criteria query. -/
def postCandidates (env : Env) (directory : Option String)
    (extensions : Option (List String)) (pr : Option (List FileRec)) : List FileRec :=
  match pr with
  | some l =>
    if l.isEmpty then
      getFilesByCriteria env directory extensions (some "file") none none none none
    else l
  | none => getFilesByCriteria env directory extensions (some "file") none none none none

/-- EmbeddingService.search_similar: embed the query (uncaught on failure) and
search the full persistent index. -/
def searchSimilar (env : Env) (q : String) (k : Nat) : Except Unit (List (Nat × Int)) := do
  let qe ← env.embedQuery q
  pure (faissSearch env.persistentIndex qe k)

/-- The post-filtering loop of search_semantic: for each ranked (handle, score)
pair look the handle up as a file id, keep records whose id is in the candidate
id set, and stop as soon as top_k results are collected. -/
def postFilterLoop (env : Env) (candidateIds : List Nat) (topK : Nat) :
    List (Nat × Int) → List FileRec → List FileRec
  | [], acc => acc
  | p :: rest, acc =>
    let acc2 := match getFileById env p.1 with
      | some r => if candidateIds.contains r.id then acc ++ [r] else acc
      | none => acc
    if topK ≤ acc2.length then acc2 else postFilterLoop env candidateIds topK rest acc2

/-- The post-filtering sub-strategy of search_semantic: full-index search for
top_k * 10 neighbours, then intersection with the candidate id set, truncated
to top_k. -/
def postFilterStrategy (env : Env) (q : String) (topK : Nat) (directory : Option String)
    (extensions : Option (List String)) (pr : Option (List FileRec)) :
    Except Unit (List FileRec) := do
  let cands := postCandidates env directory extensions pr
  let sims ← searchSimilar env q (topK * 10)
  pure (postFilterLoop env (cands.map (fun r => r.id)) topK sims [])

/-- The post-filtering branch of search_semantic followed by the history append. -/
def postFilterPath (env : Env) (q : String) (topK : Nat) (directory : Option String)
    (extensions : Option (List String)) (pr : Option (List FileRec))
    (st : List HistoryEntry) : Except Unit (List FileRec × List HistoryEntry) := do
  let results ← postFilterStrategy env q topK directory extensions pr
  pure (results, st ++ [semanticEntry q topK directory extensions results])

/-- The post-filter branch of search_semantic as invoked: the query embedding
is computed first (line 128) and search_similar recomputes it internally. -/
def postFilterRun (env : Env) (q : String) (topK : Nat) (directory : Option String)
    (extensions : Option (List String)) (pr : Option (List FileRec))
    (st : List HistoryEntry) : Except Unit (List FileRec × List HistoryEntry) := do
  let _ ← env.embedQuery q
  postFilterPath env q topK directory extensions pr st

/-- The branch guard of search_semantic:
previous_results and len(previous_results) < 1000. -/
def scopedGuard : Option (List FileRec) → Bool
  | none => false
  | some l => !l.isEmpty && decide (l.length < 1000)

/-- SearchPipeline.search_semantic. -/
def searchSemantic (env : Env) (q : String) (topK : Nat) (directory : Option String)
    (extensions : Option (List String)) (pr : Option (List FileRec))
    (st : List HistoryEntry) : Except Unit (List FileRec × List HistoryEntry) := do
  let qe ← env.embedQuery q
  if scopedGuard pr then
    pure (scopedPath env qe q topK directory extensions (pr.getD []) st)
  else
    postFilterPath env q topK directory extensions pr st

/-- Extension normalization of filter_by_extension: lower-case and ensure a
leading dot. -/
def normalizeExtensions (exts : List String) : List String :=
  exts.map (fun e => if e.startsWith "." then e.toLower else "." ++ e.toLower)

/-- SearchPipeline.filter_by_extension: filter previous results by splitext
extension when given, else a fresh criteria query; always appends one history
entry. -/
def filterByExtension (env : Env) (exts : List String) (directory : Option String)
    (pr : Option (List FileRec)) (st : List HistoryEntry) :
    List FileRec × List HistoryEntry :=
  let normalized := normalizeExtensions exts
  let results := match pr with
    | some l =>
      if l.isEmpty then
        getFilesByCriteria env directory (some normalized) (some "file") none none none none
      else l.filter (fun r => normalized.contains (splitextExt r.name).toLower)
    | none =>
      getFilesByCriteria env directory (some normalized) (some "file") none none none none
  (results, st ++ [extensionEntry exts directory results])

/-- LLMService.create_search_prompt. -/
def createSearchPrompt (q : String) (fileList : List String) : String :=
  "Given the following list of files:\n\n" ++ String.intercalate "\n" fileList ++
    "\n\nFind files that best match this search query: \"" ++ q ++ "\"\n\n" ++
    "Instructions:\n- Return ONLY the matching filenames, one per line"

/-- str.split of the newline character. -/
def splitNewline : List Char → List (List Char)
  | [] => [[]]
  | c :: rest =>
    let r := splitNewline rest
    if c == '\n' then [] :: r
    else
      match r with
      | [] => [[c]]
      | h :: t => (c :: h) :: t

/-- str.strip: drop whitespace from both ends. -/
def stripChars (cs : List Char) : List Char :=
  ((cs.dropWhile Char.isWhitespace).reverse.dropWhile Char.isWhitespace).reverse

/-- LLMService.search_files response handling: split into lines, strip, drop
empties. -/
def parseResponse (s : String) : List String :=
  ((splitNewline s.toList).map (fun l => String.mk (stripChars l))).filter
    (fun l => !l.isEmpty)

/-- LLMService.search_files: the completion of the selected client (empty string if
the API call raised) parsed into matching filenames. -/
def searchFiles (env : Env) (q : String) (fileList : List String) (useHardModel : Bool) :
    List String :=
  parseResponse ((env.llmComplete useHardModel (createSearchPrompt q fileList)).getD "")

/-- Candidate selection of search_llm (same pattern as the post-filter branch). -/
def llmCandidates (env : Env) (directory : Option String)
    (extensions : Option (List String)) (pr : Option (List FileRec)) : List FileRec :=
  match pr with
  | some l =>
    if l.isEmpty then
      getFilesByCriteria env directory extensions (some "file") none none none none
    else l
  | none => getFilesByCriteria env directory extensions (some "file") none none none none

/-- SearchPipeline.search_llm: no candidates means an early empty return with
no history entry; otherwise match returned names to the first candidate with
that name and append one history entry. -/
def searchLLM (env : Env) (q : String) (directory : Option String)
    (extensions : Option (List String)) (useHard : Bool) (pr : Option (List FileRec))
    (st : List HistoryEntry) : List FileRec × List HistoryEntry :=
  let candidates := llmCandidates env directory extensions pr
  if candidates.isEmpty then ([], st)
  else
    let fileNames := candidates.map (fun r => r.name)
    let matching := searchFiles env q fileNames useHard
    let results := matching.filterMap (fun nm => candidates.find? (fun r => r.name == nm))
    (results, st ++ [llmEntry q directory extensions useHard results])

/-- The LLM-merge loop of multi_search: append LLM records whose id is not yet
present, breaking once top_k results are collected. -/
def llmMergeLoop (topK : Nat) : List FileRec → List Nat → List FileRec → List FileRec
  | [], _, results => results
  | r :: rest, resultIds, results =>
    if resultIds.contains r.id then llmMergeLoop topK rest resultIds results
    else
      let results2 := results ++ [r]
      if topK ≤ results2.length then results2
      else llmMergeLoop topK rest (r.id :: resultIds) results2

/-- Stage 1 of multi_search: the structural metadata filter. -/
def multiBase (env : Env) (directory : Option String) (extensions : Option (List String)) :
    List FileRec :=
  getFilesByCriteria env directory extensions (some "file") none none none none

/-- SearchPipeline.multi_search. -/
def multiSearch (env : Env) (q : String) (directory : Option String)
    (extensions : Option (List String)) (useSemantic useLlm useHardLlm : Bool)
    (topK : Nat) (st : List HistoryEntry) :
    Except Unit (List FileRec × List HistoryEntry) := do
  let baseResults := multiBase env directory extensions
  if baseResults.isEmpty then pure ([], st)
  else do
    let (semResults, st1) ←
      if useSemantic then searchSemantic env q topK none none (some baseResults) st
      else pure ([], st)
    let (merged, st2) :=
      if useLlm then
        let llmOut := searchLLM env q none none useHardLlm (some baseResults) st1
        (llmMergeLoop topK llmOut.1 (semResults.map (fun r => r.id)) semResults, llmOut.2)
      else (semResults, st1)
    let finalResults := if !useSemantic && !useLlm then baseResults.take topK else merged
    pure (finalResults.take topK,
      st2 ++ [multiEntry q directory extensions useSemantic useLlm useHardLlm topK
        finalResults])

/-- Modelled from the spec (section 4.4 Merge): semantic results first in
ranked order, then each LLM result whose id is not already present, preserving
LLM order; the id set grows as unique LLM results are appended. -/
def specMergeAux : List FileRec → List Nat → List FileRec
  | [], _ => []
  | r :: rest, seenIds =>
    if seenIds.contains r.id then specMergeAux rest seenIds
    else r :: specMergeAux rest (r.id :: seenIds)

/-- Modelled from the spec (section 4.4 Merge): the merged sequence before
truncation. -/
def specMerge (sem llm : List FileRec) : List FileRec :=
  sem ++ specMergeAux llm (sem.map (fun r => r.id))

/-- Similarity score of a record in the scoped sub-strategy: dot product of its
retrieved embedding with the query embedding. -/
def scoreOfScoped (env : Env) (qe : List Int) (r : FileRec) : Int :=
  match env.embedFile r.absolutePath with
  | some v => dot v qe
  | none => 0

/-- Position of the embedding of a record in the temporary scoped index. -/
def posOfScoped (env : Env) (pr : List FileRec) (r : FileRec) : Nat :=
  ((matchedList env pr).map (fun m => m.2)).indexOf r.id

/-- Similarity score of a record in the post-filter sub-strategy: dot product
of the persistent-index vector at its id (the handle the loop looked up) with
the query embedding. -/
def scoreOfPost (env : Env) (qe : List Int) (r : FileRec) : Int :=
  match env.persistentIndex.get? r.id with
  | some v => dot v qe
  | none => 0

/-- The ordering the claim asserts for semantic results: descending similarity
score, ties by ascending record id. -/
def claimOrderScoped (env : Env) (qe : List Int) (a b : FileRec) : Prop :=
  scoreOfScoped env qe b < scoreOfScoped env qe a ∨
    (scoreOfScoped env qe a = scoreOfScoped env qe b ∧ a.id ≤ b.id)

instance claimOrderScoped.instDecidable (env : Env) (qe : List Int) (a b : FileRec) :
    Decidable (claimOrderScoped env qe a b) := by
  unfold claimOrderScoped
  exact inferInstance

/-- The ordering that actually holds in the scoped sub-strategy: descending
similarity score, ties by ascending position in the temporary index. -/
def actualOrderScoped (env : Env) (qe : List Int) (pr : List FileRec) (a b : FileRec) :
    Prop :=
  scoreOfScoped env qe b < scoreOfScoped env qe a ∨
    (scoreOfScoped env qe a = scoreOfScoped env qe b ∧
      posOfScoped env pr a ≤ posOfScoped env pr b)

/-- The ordering of post-filter results: descending similarity score, ties by
ascending record id (the id is the index handle there). -/
def orderPost (env : Env) (qe : List Int) (a b : FileRec) : Prop :=
  scoreOfPost env qe b < scoreOfPost env qe a ∨
    (scoreOfPost env qe a = scoreOfPost env qe b ∧ a.id ≤ b.id)

/-- One step of the post-filtering loop: the record kept for a ranked pair. -/
def postHit (env : Env) (candidateIds : List Nat) (p : Nat × Int) : Option FileRec :=
  (getFileById env p.1).bind (fun r => if candidateIds.contains r.id then some r else none)

/-- A file embedder as the registry sees it: its class name, its declared
supported extensions, and its can_embed content probe. -/
structure Embedder where
  className : String
  supportedExtensions : List String
  canEmbed : String → Bool

/-- The mutable state of the one registry instance: the two insertion-ordered
dicts _embedders (name to embedder) and _extension_map (extension to name). -/
structure RegState where
  embedders : List (String × Embedder)
  extensionMap : List (String × String)

/-- The process-wide picture for EmbedderRegistry: a heap of allocated
registry states (addresses are positions) and the class attribute _instance. -/
structure RegistryWorld where
  heap : List RegState
  instanceAddr : Option Nat

/-- Python dict assignment d[k] = v: update in place if the key exists
(keeping its position), else append. -/
def dictInsert {α : Type} (m : List (String × α)) (k : String) (v : α) :
    List (String × α) :=
  if m.any (fun p => p.1 == k) then
    m.map (fun p => if p.1 == k then (k, v) else p)
  else m ++ [(k, v)]

/-- EmbedderRegistry.__new__: return the class instance, allocating it with
empty dicts only when _instance is still None. Returns the new world and the
address of the returned instance. -/
def newRegistry (w : RegistryWorld) : RegistryWorld × Nat :=
  match w.instanceAddr with
  | some a => (w, a)
  | none =>
    ({ heap := w.heap ++ [{ embedders := [], extensionMap := [] }]
       instanceAddr := some w.heap.length }, w.heap.length)

/-- Dereference a registry address. -/
def heapGet (w : RegistryWorld) (a : Nat) : RegState :=
  w.heap.getD a { embedders := [], extensionMap := [] }

/-- Write back a registry state at an address. -/
def heapSet (w : RegistryWorld) (a : Nat) (s : RegState) : RegistryWorld :=
  { w with heap := w.heap.set a s }

/-- EmbedderRegistry.register through the instance at address a: store the
embedder under its (default: class) name and point every supported extension
at that name (overriding, with only a printed warning, any previous owner). -/
def registerEmbedder (w : RegistryWorld) (a : Nat) (emb : Embedder)
    (nameArg : Option String) : RegistryWorld :=
  let nm := nameArg.getD emb.className
  let s := heapGet w a
  let s1 := { s with embedders := dictInsert s.embedders nm emb }
  let s2 := { s1 with
    extensionMap := emb.supportedExtensions.foldl
      (fun m e => dictInsert m e nm) s1.extensionMap }
  heapSet w a s2

/-- EmbedderRegistry.get_for_file through the instance at address a: extension
lookup first, then a linear can_embed probe over registered embedders. -/
def getForFile (w : RegistryWorld) (a : Nat) (filePath : String) : Option Embedder :=
  let s := heapGet w a
  let e := (splitextExt filePath).toLower
  match s.extensionMap.find? (fun p => p.1 == e) with
  | some p => (s.embedders.find? (fun q => q.1 == p.2)).map (fun q => q.2)
  | none => (s.embedders.find? (fun q => q.2.canEmbed filePath)).map (fun q => q.2)

/-- A minimal file-typed record used by concrete witness scenarios. -/
def plainRec (i : Nat) (nm path : String) : FileRec :=
  { id := i
    name := nm
    absolutePath := path
    ftype := "file"
    extension := none
    size := none
    createdAt := none
    modifiedAt := none
    lastIndexedAt := none
    embeddingId := none
    embeddingType := none
    seen := false }

/-- Record with id 2 listed before record with id 1 in a candidate set. -/
def recB5 : FileRec := { plainRec 2 "b.py" "/b.py" with embeddingId := some 0 }

/-- The lower-id record of the tie-break counterexample. -/
def recA5 : FileRec := { plainRec 1 "a.py" "/a.py" with embeddingId := some 1 }

/-- Candidate set for the tie-break counterexample: higher id first. -/
def prC5 : List FileRec := [recB5, recA5]

/-- Environment in which the embedding of each candidate is retrievable and tie
on similarity. -/
def envC5 : Env :=
  { store := prC5
    dbOk := true
    embedQuery := fun _ => Except.ok [1]
    embedFile := fun _ => some [1]
    persistentIndex := []
    llmComplete := fun _ _ => none }

/-- A store with a single python file whose embedding id is NULL. -/
def envPlain : Env :=
  { store := [plainRec 1 "a.py" "/a.py"]
    dbOk := true
    embedQuery := fun _ => Except.ok [1]
    embedFile := fun _ => none
    persistentIndex := []
    llmComplete := fun _ _ => none }

/-- Same store, but the embedding model raises on every query embedding. -/
def envBadEmbed : Env :=
  { envPlain with embedQuery := fun _ => Except.error () }

/-- Same store, but every SQL statement raises sqlite3.Error. -/
def envBrokenDb : Env :=
  { envPlain with dbOk := false }

/-- An empty catalog with healthy collaborators. -/
def envEmptyStore : Env :=
  { envPlain with store := [] }

/-- Walked entry for the mark-and-sweep witness scenario. -/
def fdW : FileData := { name := "a.py", absolutePath := "/a.py", ftype := "file" }

/-- Filesystem in which only /a.py can be stat successfully. -/
def fsW : String → Option Stat :=
  fun p => if p == "/a.py" then some { size := 5, ctime := 1, mtime := 2 } else none

/-- Store holding a stale record for a path that no longer exists. -/
def dbW : DbState :=
  { records := [{ plainRec 9 "old.txt" "/old.txt" with seen := true }], nextId := 10 }

/-- Walked entry whose record is already up to date. -/
def fd7 : FileData := { name := "b.py", absolutePath := "/b.py", ftype := "file" }

/-- Filesystem for the skip-vs-unchanged comparison: /b.py stats fine, /a.py
does not. -/
def fs7 : String → Option Stat :=
  fun p => if p == "/b.py" then some { size := 10, ctime := 5, mtime := 7 } else none

/-- Store whose /b.py record matches the fresh stat (size and mtime agree). -/
def db7 : DbState :=
  { records := [{ plainRec 3 "b.py" "/b.py" with size := some 10, modifiedAt := some 7 }]
    nextId := 4 }

/-- Record A of the merge-ordering example (semantic rank 1). -/
def recA2 : FileRec := plainRec 1 "a.py" "/a.py"

/-- Record B of the merge-ordering example (semantic rank 2, also an LLM hit). -/
def recB2 : FileRec := plainRec 2 "b.py" "/b.py"

/-- Record C of the merge-ordering example (LLM-only hit). -/
def recC2 : FileRec := plainRec 3 "c.py" "/c.py"

/-- Record D of the merge-ordering example (LLM-only hit). -/
def recD2 : FileRec := plainRec 4 "d.py" "/d.py"

/-- Candidate records for the null-embedding scenario: one with a NULL
embedding_id, one whose embedding cannot be retrieved. -/
def pr9 : List FileRec :=
  [plainRec 1 "a.py" "/a.py", { plainRec 2 "b.py" "/b.py" with embeddingId := some 0 }]

/-- Environment in which no candidate embedding is retrievable. -/
def env9 : Env :=
  { envPlain with store := pr9 }

/-- Environment with one persistent-index vector whose handle matches the
id of the stored record. -/
def envPost : Env :=
  { store := [plainRec 0 "a.py" "/a.py"]
    dbOk := true
    embedQuery := fun _ => Except.ok [1]
    embedFile := fun _ => none
    persistentIndex := [[2]]
    llmComplete := fun _ _ => none }

end Lfind

namespace Lfind

theorem touch_seen (fs : String → Option Stat) (now : Int) (fd : FileData) (s : DbState)
    (p : String) :
    (∃ r ∈ (touchFile fs now fd s).2.records, r.absolutePath = p ∧ r.seen) ↔
      ((∃ r ∈ s.records, r.absolutePath = p ∧ r.seen) ∨
        (p = fd.absolutePath ∧ (fs fd.absolutePath).isSome)) := by
  unfold touchFile
  cases hfs : fs fd.absolutePath with
  | none => simp
  | some st =>
    cases hfind : s.records.find? (fun r => r.absolutePath == fd.absolutePath) with
    | none =>
      simp only [Option.isSome_some, and_true]
      constructor
      · rintro ⟨r, hr, hp, hs⟩
        rcases List.mem_append.1 hr with h | h
        · exact Or.inl ⟨r, h, hp, hs⟩
        · simp only [List.mem_singleton] at h
          subst h
          exact Or.inr hp.symm
      · rintro (⟨r, hr, hp, hs⟩ | hp)
        · exact ⟨r, List.mem_append.2 (Or.inl hr), hp, hs⟩
        · refine ⟨_, List.mem_append.2 (Or.inr (List.mem_singleton.2 rfl)), hp.symm, rfl⟩
    | some row =>
      have hrow := List.find?_some hfind
      have hrowmem := List.mem_of_find?_eq_some hfind
      rw [beq_iff_eq] at hrow
      by_cases hch : row.modifiedAt ≠ some st.mtime ∨ row.size ≠ some st.size
      · simp only [if_pos hch, Option.isSome_some, and_true]
        constructor
        · rintro ⟨r, hr, hp, hs⟩
          rcases List.mem_map.1 hr with ⟨r0, hr0, heq⟩
          by_cases hp0 : r0.absolutePath = fd.absolutePath
          · simp only [hp0, beq_self_eq_true, if_pos] at heq
            subst heq
            exact Or.inr hp.symm
          · have : (r0.absolutePath == fd.absolutePath) = false := by
              simp [hp0]
            rw [this] at heq
            simp only [Bool.false_eq_true, if_neg] at heq
            subst heq
            exact Or.inl ⟨r0, hr0, hp, hs⟩
        · rintro (⟨r, hr, hp, hs⟩ | hp)
          · by_cases hp0 : r.absolutePath = fd.absolutePath
            · refine ⟨_, List.mem_map.2 ⟨row, hrowmem, rfl⟩, ?_, ?_⟩
              · simp [hrow, hrow.symm ▸ hp0 ▸ hp, hp0 ▸ hp]
              · simp [hrow]
            · refine ⟨r, List.mem_map.2 ⟨r, hr, ?_⟩, hp, hs⟩
              simp [hp0]
          · refine ⟨_, List.mem_map.2 ⟨row, hrowmem, rfl⟩, ?_, ?_⟩
            · simp [hrow, hp]
            · simp [hrow]
      · simp only [if_neg hch, Option.isSome_some, and_true]
        constructor
        · rintro ⟨r, hr, hp, hs⟩
          rcases List.mem_map.1 hr with ⟨r0, hr0, heq⟩
          by_cases hp0 : r0.absolutePath = fd.absolutePath
          · simp only [hp0, beq_self_eq_true, if_pos] at heq
            subst heq
            exact Or.inr hp.symm
          · have : (r0.absolutePath == fd.absolutePath) = false := by
              simp [hp0]
            rw [this] at heq
            simp only [Bool.false_eq_true, if_neg] at heq
            subst heq
            exact Or.inl ⟨r0, hr0, hp, hs⟩
        · rintro (⟨r, hr, hp, hs⟩ | hp)
          · by_cases hp0 : r.absolutePath = fd.absolutePath
            · refine ⟨_, List.mem_map.2 ⟨row, hrowmem, rfl⟩, ?_, ?_⟩
              · simp [hrow, hp0 ▸ hp]
              · simp [hrow]
            · refine ⟨r, List.mem_map.2 ⟨r, hr, ?_⟩, hp, hs⟩
              simp [hp0]
          · refine ⟨_, List.mem_map.2 ⟨row, hrowmem, rfl⟩, ?_, ?_⟩
            · simp [hrow, hp]
            · simp [hrow]

theorem touch_mem (fs : String → Option Stat) (now : Int) (fd : FileData) (s : DbState)
    (p : String) :
    (∃ r ∈ (touchFile fs now fd s).2.records, r.absolutePath = p) ↔
      ((∃ r ∈ s.records, r.absolutePath = p) ∨
        (p = fd.absolutePath ∧ (fs fd.absolutePath).isSome)) := by
  unfold touchFile
  cases hfs : fs fd.absolutePath with
  | none => simp
  | some st =>
    cases hfind : s.records.find? (fun r => r.absolutePath == fd.absolutePath) with
    | none =>
      simp only [Option.isSome_some, and_true]
      constructor
      · rintro ⟨r, hr, hp⟩
        rcases List.mem_append.1 hr with h | h
        · exact Or.inl ⟨r, h, hp⟩
        · simp only [List.mem_singleton] at h
          subst h
          exact Or.inr hp.symm
      · rintro (⟨r, hr, hp⟩ | hp)
        · exact ⟨r, List.mem_append.2 (Or.inl hr), hp⟩
        · exact ⟨_, List.mem_append.2 (Or.inr (List.mem_singleton.2 rfl)), hp.symm⟩
    | some row =>
      have hrow := List.find?_some hfind
      have hrowmem := List.mem_of_find?_eq_some hfind
      rw [beq_iff_eq] at hrow
      have hmap : ∀ (f : FileRec → FileRec),
          (∀ r, (f r).absolutePath = r.absolutePath) →
          ((∃ r ∈ (s.records.map (fun r =>
              if r.absolutePath == fd.absolutePath then f r else r)), r.absolutePath = p) ↔
            ((∃ r ∈ s.records, r.absolutePath = p) ∨
              (p = fd.absolutePath ∧ (some st : Option Stat).isSome))) := by
        intro f hf
        simp only [Option.isSome_some, and_true]
        constructor
        · rintro ⟨r, hr, hp⟩
          rcases List.mem_map.1 hr with ⟨r0, hr0, heq⟩
          by_cases hp0 : r0.absolutePath = fd.absolutePath
          · simp only [hp0, beq_self_eq_true, if_pos] at heq
            subst heq
            rw [hf] at hp
            exact Or.inl ⟨r0, hr0, hp⟩
          · have : (r0.absolutePath == fd.absolutePath) = false := by simp [hp0]
            rw [this] at heq
            simp only [Bool.false_eq_true, if_neg] at heq
            subst heq
            exact Or.inl ⟨r0, hr0, hp⟩
        · rintro (⟨r, hr, hp⟩ | hp)
          · by_cases hp0 : r.absolutePath = fd.absolutePath
            · refine ⟨f r, List.mem_map.2 ⟨r, hr, ?_⟩, by rw [hf]; exact hp⟩
              simp [hp0]
            · refine ⟨r, List.mem_map.2 ⟨r, hr, ?_⟩, hp⟩
              simp [hp0]
          · refine ⟨f row, List.mem_map.2 ⟨row, hrowmem, ?_⟩, by rw [hf, hrow, hp]⟩
            simp [hrow]
      by_cases hch : row.modifiedAt ≠ some st.mtime ∨ row.size ≠ some st.size
      · simp only [if_pos hch]
        exact hmap _ (fun r => rfl)
      · simp only [if_neg hch]
        exact hmap _ (fun r => rfl)

theorem fold_touch_seen (fs : String → Option Stat) (now : Int) :
    ∀ (fds : List FileData) (s : DbState) (p : String),
      (∃ r ∈ (foldTouch fs now fds s).records, r.absolutePath = p ∧ r.seen) ↔
        ((∃ r ∈ s.records, r.absolutePath = p ∧ r.seen) ∨
          ((∃ fd ∈ fds, fd.absolutePath = p) ∧ (fs p).isSome)) := by
  intro fds
  induction fds with
  | nil => intro s p; simp [foldTouch]
  | cons fd rest ih =>
    intro s p
    have hstep : foldTouch fs now (fd :: rest) s =
        foldTouch fs now rest (touchFile fs now fd s).2 := rfl
    rw [hstep, ih, touch_seen]
    constructor
    · rintro (((h | ⟨hp, hs⟩) | ⟨⟨fd2, hfd2, hp2⟩, hs2⟩))
      · exact Or.inl h
      · exact Or.inr ⟨⟨fd, List.mem_cons_self _ _, hp.symm⟩, by rw [hp]; exact hs⟩
      · exact Or.inr ⟨⟨fd2, List.mem_cons_of_mem _ hfd2, hp2⟩, hs2⟩
    · rintro (h | ⟨⟨fd2, hfd2, hp2⟩, hs2⟩)
      · exact Or.inl (Or.inl h)
      · rcases List.mem_cons.1 hfd2 with heq | hmem
        · subst heq
          exact Or.inl (Or.inr ⟨hp2.symm, by rw [← hp2] at hs2; exact hs2⟩)
        · exact Or.inr ⟨⟨fd2, hmem, hp2⟩, hs2⟩

/-- C1: Mark-and-sweep correctness. After reset_seen_flags, touch_file over the
walked entries, and delete_missing_files, the table holds a record for a path
if and only if that path was walked and its stat succeeded; in particular every
record whose path was present before the pass but was not walked (or whose stat
failed) is gone. -/
theorem mark_and_sweep_correct (fs : String → Option Stat) (now : Int)
    (fds : List FileData) (s : DbState) :
    (∀ p, (∃ r ∈ (runPass fs now fds s).records, r.absolutePath = p) ↔
        ((∃ fd ∈ fds, fd.absolutePath = p) ∧ (fs p).isSome))
    ∧ (∀ r ∈ s.records, (∀ fd ∈ fds, fd.absolutePath ≠ r.absolutePath) →
        ∀ r2 ∈ (runPass fs now fds s).records, r2.absolutePath ≠ r.absolutePath) := by
  have hmain : ∀ p, (∃ r ∈ (runPass fs now fds s).records, r.absolutePath = p) ↔
      ((∃ fd ∈ fds, fd.absolutePath = p) ∧ (fs p).isSome) := by
    intro p
    unfold runPass deleteMissingFiles
    constructor
    · rintro ⟨r, hr, hp⟩
      simp only [List.mem_filter] at hr
      have hx : ∃ r2 ∈ (foldTouch fs now fds (resetSeenFlags s)).records,
          r2.absolutePath = p ∧ r2.seen := ⟨r, hr.1, hp, by simpa using hr.2⟩
      rw [fold_touch_seen] at hx
      rcases hx with h | h
      · exfalso
        rcases h with ⟨r2, hr2, _, hs2⟩
        rcases List.mem_map.1 hr2 with ⟨r0, _, heq⟩
        rw [← heq] at hs2
        simp at hs2
      · exact h
    · intro h
      have hx : (∃ r ∈ (resetSeenFlags s).records, r.absolutePath = p ∧ r.seen) ∨
          ((∃ fd ∈ fds, fd.absolutePath = p) ∧ (fs p).isSome) := Or.inr h
      rw [← fold_touch_seen fs now fds (resetSeenFlags s) p] at hx
      rcases hx with ⟨r, hr, hp, hs⟩
      exact ⟨r, List.mem_filter.2 ⟨hr, by simpa using hs⟩, hp⟩
  refine ⟨hmain, ?_⟩
  intro r _ hnot r2 hr2 hp2
  have hx : ∃ r3 ∈ (runPass fs now fds s).records, r3.absolutePath = r.absolutePath :=
    ⟨r2, hr2, hp2⟩
  rw [hmain] at hx
  rcases hx with ⟨⟨fd, hfd, hfp⟩, _⟩
  exact hnot fd hfd hfp

theorem mark_and_sweep_witness :
    ((∃ r ∈ (runPass fsW 0 [fdW] dbW).records, r.absolutePath = "/a.py") ↔
      ((∃ fd ∈ [fdW], fd.absolutePath = "/a.py") ∧ (fsW "/a.py").isSome)) ∧
    (∃ r ∈ (runPass fsW 0 [fdW] dbW).records, r.absolutePath = "/a.py") ∧
    ¬ (∃ r ∈ (runPass fsW 0 [fdW] dbW).records, r.absolutePath = "/old.txt") := by
  refine ⟨(mark_and_sweep_correct fsW 0 [fdW] dbW).1 "/a.py", ?_, ?_⟩
  · exact ((mark_and_sweep_correct fsW 0 [fdW] dbW).1 "/a.py").mpr (by decide)
  · intro h
    have := ((mark_and_sweep_correct fsW 0 [fdW] dbW).1 "/old.txt").mp h
    revert this
    decide

theorem except_bind_ok {ε α β : Type} (a : α) (f : α → Except ε β) :
    ((Except.ok a : Except ε α) >>= f) = f a := rfl

theorem except_bind_error {ε α β : Type} (e : ε) (f : α → Except ε β) :
    ((Except.error e : Except ε α) >>= f) = Except.error e := rfl

theorem except_pure_eq_ok {ε α : Type} (a : α) : (pure a : Except ε α) = Except.ok a := rfl

theorem isEmpty_false_of_ne_nil {α : Type} {l : List α} (h : l ≠ []) :
    l.isEmpty = false := by
  cases l with
  | nil => exact absurd rfl h
  | cons a t => rfl

/-- C3: search_semantic chooses its sub-strategy purely by the candidate-set
size against the fixed threshold 1000: a candidate set of exactly 1000 records
takes the post-filter branch, one of 999 records takes the scoped-index
branch, and with no candidate set given the post-filter branch runs. -/
theorem strategy_selection_boundary (env : Env) (q : String) (topK : Nat)
    (directory : Option String) (extensions : Option (List String))
    (st : List HistoryEntry) :
    (∀ pr : List FileRec, pr.length = 1000 →
      searchSemantic env q topK directory extensions (some pr) st =
        postFilterRun env q topK directory extensions (some pr) st)
    ∧ (∀ pr : List FileRec, pr.length = 999 →
      searchSemantic env q topK directory extensions (some pr) st =
        scopedRun env q topK directory extensions pr st)
    ∧ (searchSemantic env q topK directory extensions none st =
        postFilterRun env q topK directory extensions none st) := by
  refine ⟨?_, ?_, ?_⟩
  · intro pr h
    have hg : scopedGuard (some pr) = false := by
      simp [scopedGuard, h]
    unfold searchSemantic postFilterRun
    cases env.embedQuery q with
    | error e => rfl
    | ok qe => simp [hg]
  · intro pr h
    have hne : pr ≠ [] := by
      intro hnil
      rw [hnil] at h
      exact absurd h (by decide)
    have hg : scopedGuard (some pr) = true := by
      simp [scopedGuard, h, isEmpty_false_of_ne_nil hne]
    unfold searchSemantic scopedRun
    cases env.embedQuery q with
    | error e => rfl
    | ok qe => simp [hg]
  · unfold searchSemantic postFilterRun
    cases env.embedQuery q with
    | error e => rfl
    | ok qe => simp [scopedGuard]

theorem strategy_selection_boundary_witness :
    (List.replicate 1000 (plainRec 1 "a.py" "/a.py")).length = 1000 ∧
    (List.replicate 999 (plainRec 1 "a.py" "/a.py")).length = 999 ∧
    searchSemantic envPlain "q" 10 none none
        (some (List.replicate 1000 (plainRec 1 "a.py" "/a.py"))) [] =
      postFilterRun envPlain "q" 10 none none
        (some (List.replicate 1000 (plainRec 1 "a.py" "/a.py"))) [] ∧
    searchSemantic envPlain "q" 10 none none
        (some (List.replicate 999 (plainRec 1 "a.py" "/a.py"))) [] =
      scopedRun envPlain "q" 10 none none
        (List.replicate 999 (plainRec 1 "a.py" "/a.py")) [] ∧
    searchSemantic envPlain "q" 10 none none none [] =
      postFilterRun envPlain "q" 10 none none none [] :=
  ⟨by rw [List.length_replicate], by rw [List.length_replicate],
   (strategy_selection_boundary envPlain "q" 10 none none []).1 _
     (by rw [List.length_replicate]),
   (strategy_selection_boundary envPlain "q" 10 none none []).2.1 _
     (by rw [List.length_replicate]),
   (strategy_selection_boundary envPlain "q" 10 none none []).2.2⟩

/-- C7 (amended): when the stat of the path fails, touch_file changes nothing in
the store and does not raise, but it reports False, the same value it reports
for an unchanged record, not a distinct skipped outcome. -/
theorem touch_skip_on_stat_failure (fs : String → Option Stat) (now : Int)
    (fd : FileData) (s : DbState) (h : fs fd.absolutePath = none) :
    touchFile fs now fd s = (false, s) := by
  unfold touchFile
  rw [h]

theorem touch_skip_on_stat_failure_witness :
    fs7 "/a.py" = none ∧
    touchFile fs7 0 { name := "a.py", absolutePath := "/a.py", ftype := "file" } db7 =
      (false, db7) :=
  ⟨rfl, touch_skip_on_stat_failure fs7 0 _ db7 rfl⟩

/-- C7 counterexample: the skipped outcome is not distinct from the unchanged
outcome. A stat-failing touch and an up-to-date touch both report False (the
up-to-date call is genuinely the unchanged branch: its record keeps
last_indexed_at NULL, which the update branch would have overwritten). -/
theorem touch_skip_not_distinct :
    (touchFile fs7 0 { name := "a.py", absolutePath := "/a.py", ftype := "file" } db7).1 =
      false ∧
    (touchFile fs7 0 fd7 db7).1 = false ∧
    (touchFile fs7 0 fd7 db7).2 =
      { records := [{ plainRec 3 "b.py" "/b.py" with
          size := some 10, modifiedAt := some 7, seen := true }], nextId := 4 } := by
  refine ⟨rfl, rfl, by decide⟩

/-- C6 (amended): a Metadata Store query failure does not propagate.
get_files_by_criteria catches the sqlite error and returns an empty list, so
multi_search completes normally with an empty result, indistinguishable from
an empty catalog. -/
theorem store_failure_swallowed (env : Env) (q : String) (directory : Option String)
    (extensions : Option (List String)) (useSemantic useLlm useHardLlm : Bool)
    (topK : Nat) (st : List HistoryEntry) (h : env.dbOk = false) :
    multiSearch env q directory extensions useSemantic useLlm useHardLlm topK st =
      Except.ok ([], st) := by
  unfold multiSearch multiBase getFilesByCriteria
  rw [h]
  rfl

theorem store_failure_swallowed_witness :
    envBrokenDb.dbOk = false ∧
    multiSearch envBrokenDb "q" none none true true false 10 [] = Except.ok ([], []) :=
  ⟨rfl, store_failure_swallowed envBrokenDb "q" none none true true false 10 [] rfl⟩

/-- C6 counterexample: with a non-empty catalog behind a failing store, the
pipeline invocation does not abort with an error; it returns Except.ok with an
empty result. -/
theorem store_failure_not_propagated :
    multiSearch envBrokenDb "q" none none true true false 10 [] = Except.ok ([], []) ∧
    multiSearch envBrokenDb "q" none none true true false 10 [] ≠ Except.error () ∧
    envBrokenDb.store ≠ [] := by
  refine ⟨rfl, ?_, by decide⟩
  intro h
  rw [show multiSearch envBrokenDb "q" none none true true false 10 [] =
    Except.ok ([], []) from rfl] at h
  exact Except.noConfusion h

/-- C4 counterexample: a failing embedding collaborator does not degrade the
semantic stage to an empty result; the query-embedding exception escapes
search_semantic and multi_search fails the whole call. -/
theorem embed_failure_aborts :
    multiSearch envBadEmbed "q" none none true true false 10 [] = Except.error () ∧
    envBadEmbed.store ≠ [] :=
  ⟨rfl, by decide⟩

/-- C4 (amended): an LLM-collaborator failure degrades the LLM stage to an
empty result set and multi_search still returns the semantic-stage results
truncated to top_k; but a failure of the embedding collaborator while
embedding the query propagates and aborts the invocation. -/
theorem llm_failure_degrades (env : Env) (q : String) (directory : Option String)
    (extensions : Option (List String)) (useHardLlm : Bool) (topK : Nat)
    (st st1 : List HistoryEntry) (sem : List FileRec)
    (hllm : ∀ hard prompt, env.llmComplete hard prompt = none)
    (hbase : multiBase env directory extensions ≠ [])
    (hsem : searchSemantic env q topK none none (some (multiBase env directory extensions))
        st = Except.ok (sem, st1)) :
    (∃ st2, multiSearch env q directory extensions true true useHardLlm topK st =
        Except.ok (sem.take topK, st2))
    ∧ (env.embedQuery q = Except.error () →
        multiSearch env q directory extensions true true useHardLlm topK st =
          Except.error ()) := by
  have hbe : (multiBase env directory extensions).isEmpty = false :=
    isEmpty_false_of_ne_nil hbase
  constructor
  · have hcand : llmCandidates env none none (some (multiBase env directory extensions)) =
        multiBase env directory extensions := by
      simp [llmCandidates, hbe]
    have hfiles : ∀ names, searchFiles env q names useHardLlm = [] := by
      intro names
      unfold searchFiles
      rw [hllm]
      rfl
    have hllmstage :
        searchLLM env q none none useHardLlm (some (multiBase env directory extensions))
            st1 =
          ([], st1 ++ [llmEntry q none none useHardLlm []]) := by
      simp [searchLLM, hcand, hbe, hfiles]
    refine ⟨st1 ++ ([llmEntry q none none useHardLlm []] ++
        [multiEntry q directory extensions true true useHardLlm topK sem]), ?_⟩
    simp [multiSearch, hbe, hsem, except_bind_ok, hllmstage, llmMergeLoop]
  · intro hq
    have hsq : searchSemantic env q topK none none
        (some (multiBase env directory extensions)) st = Except.error () := by
      unfold searchSemantic
      rw [hq]
      rfl
    simp [multiSearch, hbe, hsq, except_bind_error]

theorem rankLE_total (p q : Nat × Int) : rankLE p q ∨ rankLE q p := by
  unfold rankLE
  rcases lt_trichotomy p.2 q.2 with h | h | h
  · exact Or.inr (Or.inl h)
  · rcases Nat.le_total p.1 q.1 with h2 | h2
    · exact Or.inl (Or.inr ⟨h, h2⟩)
    · exact Or.inr (Or.inr ⟨h.symm, h2⟩)
  · exact Or.inl (Or.inl h)

theorem rankLE_trans {p q r : Nat × Int} (h1 : rankLE p q) (h2 : rankLE q r) :
    rankLE p r := by
  unfold rankLE at h1 h2 ⊢
  rcases h1 with h1 | ⟨h1e, h1i⟩
  · rcases h2 with h2 | ⟨h2e, h2i⟩
    · exact Or.inl (h2.trans h1)
    · exact Or.inl (by rw [← h2e]; exact h1)
  · rcases h2 with h2 | ⟨h2e, h2i⟩
    · exact Or.inl (by rw [h1e]; exact h2)
    · exact Or.inr ⟨h1e.trans h2e, h1i.trans h2i⟩

theorem mem_insertRanked {x p : Nat × Int} :
    ∀ {l : List (Nat × Int)}, x ∈ insertRanked p l → x = p ∨ x ∈ l := by
  intro l
  induction l with
  | nil =>
    intro h
    simp [insertRanked] at h
    exact Or.inl h
  | cons q rest ih =>
    intro h
    unfold insertRanked at h
    by_cases hc : rankLE p q
    · rw [if_pos hc] at h
      rcases List.mem_cons.1 h with h | h
      · exact Or.inl h
      · exact Or.inr h
    · rw [if_neg hc] at h
      rcases List.mem_cons.1 h with h | h
      · exact Or.inr (h ▸ List.mem_cons_self _ _)
      · rcases ih h with h | h
        · exact Or.inl h
        · exact Or.inr (List.mem_cons_of_mem _ h)

theorem pairwise_insertRanked (p : Nat × Int) :
    ∀ {l : List (Nat × Int)}, l.Pairwise rankLE → (insertRanked p l).Pairwise rankLE := by
  intro l
  induction l with
  | nil =>
    intro _
    simp [insertRanked]
  | cons q rest ih =>
    intro hp
    rcases List.pairwise_cons.1 hp with ⟨hq, htail⟩
    unfold insertRanked
    by_cases hc : rankLE p q
    · rw [if_pos hc]
      rw [List.pairwise_cons]
      refine ⟨?_, hp⟩
      intro x hx
      rcases List.mem_cons.1 hx with h | h
      · rw [h]
        exact hc
      · exact rankLE_trans hc (hq x h)
    · rw [if_neg hc]
      rw [List.pairwise_cons]
      refine ⟨?_, ih htail⟩
      intro x hx
      rcases mem_insertRanked hx with h | h
      · rw [h]
        rcases rankLE_total p q with h2 | h2
        · exact absurd h2 hc
        · exact h2
      · exact hq x h

theorem pairwise_sortRanked : ∀ (l : List (Nat × Int)), (sortRanked l).Pairwise rankLE := by
  intro l
  induction l with
  | nil => simp [sortRanked]
  | cons p rest ih => exact pairwise_insertRanked p ih

theorem mem_sortRanked {x : Nat × Int} :
    ∀ {l : List (Nat × Int)}, x ∈ sortRanked l → x ∈ l := by
  intro l
  induction l with
  | nil =>
    intro h
    simp [sortRanked] at h
  | cons p rest ih =>
    intro h
    unfold sortRanked at h
    rcases mem_insertRanked h with h | h
    · exact h ▸ List.mem_cons_self _ _
    · exact List.mem_cons_of_mem _ (ih h)

theorem faissSearch_pairwise (stored : List (List Int)) (q : List Int) (k : Nat) :
    (faissSearch stored q k).Pairwise rankLE :=
  (pairwise_sortRanked _).sublist (List.take_sublist _ _)

theorem faissSearch_mem {stored : List (List Int)} {q : List Int} {k : Nat}
    {p : Nat × Int} (h : p ∈ faissSearch stored q k) :
    p.1 < stored.length ∧ p.2 = dot (stored.getD p.1 []) q := by
  unfold faissSearch at h
  have h2 := mem_sortRanked (List.mem_of_mem_take h)
  rcases List.mem_map.1 h2 with ⟨i, hi, hp⟩
  rw [List.mem_range] at hi
  rw [← hp]
  exact ⟨hi, rfl⟩

theorem matched_ids_sublist (env : Env) :
    ∀ pr : List FileRec,
      ((matchedList env pr).map (fun m => m.2)).Sublist (pr.map (fun r => r.id)) := by
  intro pr
  induction pr with
  | nil => simp [matchedList]
  | cons r rest ih =>
    unfold matchedList at ih ⊢
    rw [List.filterMap_cons, List.map_cons]
    cases hf : (if r.embeddingId.isSome then
        (env.embedFile r.absolutePath).map (fun v => (v, r.id)) else none) with
    | none => exact ih.cons _
    | some m =>
      have hm2 : m.2 = r.id := by
        by_cases he : r.embeddingId.isSome
        · rw [if_pos he] at hf
          rcases Option.map_eq_some'.1 hf with ⟨v, _, hm⟩
          rw [← hm]
        · rw [if_neg he] at hf
          exact absurd hf (by simp)
      rw [List.map_cons, hm2]
      exact ih.cons₂ _

theorem matched_mem {env : Env} {pr : List FileRec} {m : List Int × Nat}
    (h : m ∈ matchedList env pr) :
    ∃ r ∈ pr, r.id = m.2 ∧ r.embeddingId.isSome ∧
      env.embedFile r.absolutePath = some m.1 := by
  unfold matchedList at h
  rcases List.mem_filterMap.1 h with ⟨r, hr, hf⟩
  by_cases he : r.embeddingId.isSome
  · rw [if_pos he] at hf
    rcases Option.map_eq_some'.1 hf with ⟨v, hv, hm⟩
    refine ⟨r, hr, ?_, he, ?_⟩
    · rw [← hm]
    · rw [← hm]
      exact hv
  · rw [if_neg he] at hf
    exact absurd hf (by simp)

theorem pairwise_transfer {α β : Type} {R : α → α → Prop} {S : β → β → Prop}
    (g : α → Option β) :
    ∀ (l : List α), l.Pairwise R →
      (∀ a ∈ l, ∀ a2 ∈ l, ∀ b b2, R a a2 → g a = some b → g a2 = some b2 → S b b2) →
      (l.filterMap g).Pairwise S := by
  intro l
  induction l with
  | nil =>
    intro _ _
    simp
  | cons a t ih =>
    intro hp hcond
    rcases List.pairwise_cons.1 hp with ⟨hhead, htail⟩
    rw [List.filterMap_cons]
    have htrans := ih htail (fun x hx y hy b b2 hr hgx hgy =>
      hcond x (List.mem_cons_of_mem _ hx) y (List.mem_cons_of_mem _ hy) b b2 hr hgx hgy)
    cases hg : g a with
    | none => exact htrans
    | some b =>
      rw [List.pairwise_cons]
      refine ⟨?_, htrans⟩
      intro b2 hb2
      rcases List.mem_filterMap.1 hb2 with ⟨a2, ha2, hga2⟩
      exact hcond a (List.mem_cons_self _ _) a2 (List.mem_cons_of_mem _ ha2) b b2
        (hhead a2 ha2) hg hga2

theorem scoped_result_facts (env : Env) (qe : List Int) (topK : Nat) (pr : List FileRec)
    (hnd : (pr.map (fun r => r.id)).Nodup) :
    ∀ p ∈ faissSearch ((matchedList env pr).map (fun m => m.1)) qe
        (min topK (matchedList env pr).length),
      ∀ r, ((matchedList env pr).get? p.1).bind
          (fun m => pr.find? (fun r0 => r0.id == m.2)) = some r →
        r ∈ pr ∧ r.embeddingId.isSome ∧ scoreOfScoped env qe r = p.2 ∧
          posOfScoped env pr r = p.1 := by
  intro p hp r hr
  obtain ⟨hlt0, hsc⟩ := faissSearch_mem hp
  have hlt : p.1 < (matchedList env pr).length := by
    rw [List.length_map] at hlt0
    exact hlt0
  cases hm : (matchedList env pr).get? p.1 with
  | none =>
    rw [hm] at hr
    exact absurd hr (by simp)
  | some m =>
    rw [hm] at hr
    simp only [Option.some_bind] at hr
    have hrid : r.id = m.2 := by
      have h2 := List.find?_some hr
      rwa [beq_iff_eq] at h2
    have hrmem : r ∈ pr := List.mem_of_find?_eq_some hr
    have hmm : m ∈ matchedList env pr := List.get?_mem hm
    obtain ⟨r2, hr2, hid2, hemb2, hef2⟩ := matched_mem hmm
    have hreq : r = r2 := List.inj_on_of_nodup_map hnd hrmem hr2 (by rw [hrid, hid2])
    refine ⟨hrmem, by rw [hreq]; exact hemb2, ?_, ?_⟩
    · unfold scoreOfScoped
      rw [hreq, hef2, hsc]
      have hgd : ((matchedList env pr).map (fun m2 => m2.1)).getD p.1 [] = m.1 := by
        rw [List.getD_eq_getElem?_getD, List.getElem?_map, ← List.get?_eq_getElem?, hm]
        rfl
      rw [hgd]
    · unfold posOfScoped
      have hlen2 : p.1 < ((matchedList env pr).map (fun m2 => m2.2)).length := by
        rw [List.length_map]
        exact hlt
      have hfid : ((matchedList env pr).map (fun m2 => m2.2))[p.1] = m.2 := by
        have h1 : ((matchedList env pr).map (fun m2 => m2.2))[p.1]? = some m.2 := by
          rw [List.getElem?_map, ← List.get?_eq_getElem?, hm]
          rfl
        rw [List.getElem?_eq_getElem hlen2] at h1
        exact Option.some.inj h1
      have hnd2 : ((matchedList env pr).map (fun m2 => m2.2)).Nodup :=
        (matched_ids_sublist env pr).nodup hnd
      rw [hrid, ← hfid]
      exact List.indexOf_getElem hnd2 p.1 hlen2

theorem scopedStrategy_pairwise (env : Env) (qe : List Int) (topK : Nat)
    (pr : List FileRec) (hnd : (pr.map (fun r => r.id)).Nodup) :
    (scopedStrategy env qe topK pr).Pairwise (actualOrderScoped env qe pr) := by
  simp only [scopedStrategy]
  refine pairwise_transfer _ _ (faissSearch_pairwise _ _ _) ?_
  intro p hp p2 hp2 r r2 hR hg hg2
  obtain ⟨_, _, hs1, hpos1⟩ := scoped_result_facts env qe topK pr hnd p hp r hg
  obtain ⟨_, _, hs2, hpos2⟩ := scoped_result_facts env qe topK pr hnd p2 hp2 r2 hg2
  unfold actualOrderScoped
  rcases hR with hR | ⟨hRe, hRi⟩
  · left
    rw [hs1, hs2]
    exact hR
  · right
    refine ⟨by rw [hs1, hs2, hRe], ?_⟩
    rw [hpos1, hpos2]
    exact hRi

theorem postHit_facts {env : Env} {cids : List Nat} {p : Nat × Int} {r : FileRec}
    (h : postHit env cids p = some r) : r.id = p.1 := by
  unfold postHit getFileById at h
  by_cases hdb : env.dbOk = true
  · rw [if_pos hdb] at h
    cases hf : env.store.find? (fun r0 => r0.id == p.1) with
    | none =>
      rw [hf] at h
      exact absurd h (by simp)
    | some r0 =>
      rw [hf] at h
      simp only [Option.some_bind] at h
      by_cases hc : cids.contains r0.id = true
      · rw [if_pos hc] at h
        have hr0 : r0 = r := Option.some.inj h
        have h2 := List.find?_some hf
        rw [beq_iff_eq] at h2
        rw [← hr0]
        exact h2
      · have hc2 : cids.contains r0.id = false := by
          revert hc
          cases cids.contains r0.id <;> simp
        rw [hc2] at h
        exact absurd h (by simp)
  · have hdb2 : env.dbOk = false := by
      revert hdb
      cases env.dbOk <;> simp
    rw [hdb2] at h
    exact absurd h (by simp)

theorem postFilterLoop_eq (env : Env) (cids : List Nat) (topK : Nat) :
    ∀ (sims : List (Nat × Int)) (acc : List FileRec),
      ∃ j, postFilterLoop env cids topK sims acc =
        acc ++ (sims.take j).filterMap (postHit env cids) := by
  intro sims
  induction sims with
  | nil =>
    intro acc
    exact ⟨0, by simp [postFilterLoop]⟩
  | cons p rest ih =>
    intro acc
    have hacc2 : (match getFileById env p.1 with
        | some r => if cids.contains r.id then acc ++ [r] else acc
        | none => acc) = acc ++ (postHit env cids p).toList := by
      unfold postHit
      cases getFileById env p.1 with
      | none => simp
      | some r => by_cases hcp : r.id ∈ cids <;> simp [hcp]
    cases hph : postHit env cids p with
    | none =>
      rw [hph] at hacc2
      rw [Option.toList_none, List.append_nil] at hacc2
      by_cases hbr : topK ≤ acc.length
      · refine ⟨1, ?_⟩
        simp only [postFilterLoop, hacc2, if_pos hbr, List.take_succ_cons,
          List.take_zero, List.filterMap_cons_none hph, List.filterMap_nil,
          List.append_nil]
      · obtain ⟨j, hj⟩ := ih acc
        refine ⟨j + 1, ?_⟩
        simp only [postFilterLoop, hacc2, if_neg hbr, hj, List.take_succ_cons,
          List.filterMap_cons_none hph]
    | some r0 =>
      rw [hph] at hacc2
      rw [Option.toList_some] at hacc2
      by_cases hbr : topK ≤ (acc ++ [r0]).length
      · refine ⟨1, ?_⟩
        simp only [postFilterLoop, hacc2, if_pos hbr, List.take_succ_cons,
          List.take_zero, List.filterMap_cons_some hph, List.filterMap_nil]
      · obtain ⟨j, hj⟩ := ih (acc ++ [r0])
        refine ⟨j + 1, ?_⟩
        simp only [postFilterLoop, hacc2, if_neg hbr, hj, List.take_succ_cons,
          List.filterMap_cons_some hph]
        rw [List.append_assoc]
        rfl

theorem postFilter_pairwise (env : Env) (q : String) (qe : List Int) (topK : Nat)
    (directory : Option String) (extensions : Option (List String))
    (pr : Option (List FileRec)) (res : List FileRec)
    (hq : env.embedQuery q = Except.ok qe)
    (h : postFilterStrategy env q topK directory extensions pr = Except.ok res) :
    res.Pairwise (orderPost env qe) := by
  have hsim : searchSimilar env q (topK * 10) =
      Except.ok (faissSearch env.persistentIndex qe (topK * 10)) := by
    unfold searchSimilar
    rw [hq]
    rfl
  unfold postFilterStrategy at h
  rw [hsim, except_bind_ok, except_pure_eq_ok, Except.ok.injEq] at h
  obtain ⟨j, hj⟩ :=
    postFilterLoop_eq env ((postCandidates env directory extensions pr).map
      (fun r => r.id)) topK (faissSearch env.persistentIndex qe (topK * 10)) []
  rw [← h, hj, List.nil_append]
  refine pairwise_transfer _ _
    ((faissSearch_pairwise env.persistentIndex qe (topK * 10)).sublist
      (List.take_sublist _ _)) ?_
  intro p hp p2 hp2 r r2 hR hg hg2
  obtain ⟨hlt1, hsc1⟩ := faissSearch_mem (List.mem_of_mem_take hp)
  obtain ⟨hlt2, hsc2⟩ := faissSearch_mem (List.mem_of_mem_take hp2)
  have hid1 := postHit_facts hg
  have hid2 := postHit_facts hg2
  have hscore : ∀ (r3 : FileRec) (p3 : Nat × Int), r3.id = p3.1 →
      p3.1 < env.persistentIndex.length →
      p3.2 = dot (env.persistentIndex.getD p3.1 []) qe →
      scoreOfPost env qe r3 = p3.2 := by
    intro r3 p3 hid hlt hsc
    unfold scoreOfPost
    rw [hid, List.get?_eq_getElem?, List.getElem?_eq_getElem hlt, hsc,
      List.getD_eq_getElem?_getD, List.getElem?_eq_getElem hlt]
    rfl
  have hs1 := hscore r p hid1 hlt1 hsc1
  have hs2 := hscore r2 p2 hid2 hlt2 hsc2
  unfold orderPost
  rcases hR with hR | ⟨hRe, hRi⟩
  · left
    rw [hs1, hs2]
    exact hR
  · right
    refine ⟨by rw [hs1, hs2, hRe], ?_⟩
    rw [hid1, hid2]
    exact hRi

theorem searchLLM_hist (env : Env) (q : String) (directory : Option String)
    (extensions : Option (List String)) (hard : Bool) (pr : Option (List FileRec))
    (st : List HistoryEntry) :
    (llmCandidates env directory extensions pr = [] ∧
      searchLLM env q directory extensions hard pr st = ([], st)) ∨
    (llmCandidates env directory extensions pr ≠ [] ∧
      ∃ e, (searchLLM env q directory extensions hard pr st).2 = st ++ [e] ∧
        e.searchType = "llm") := by
  by_cases h : llmCandidates env directory extensions pr = []
  · left
    refine ⟨h, ?_⟩
    simp [searchLLM, h]
  · right
    have hbe := isEmpty_false_of_ne_nil h
    refine ⟨h, ?_⟩
    simp only [searchLLM, hbe, Bool.false_eq_true, if_false]
    exact ⟨_, rfl, rfl⟩

theorem scopedPath_hist (env : Env) (qe : List Int) (q : String) (topK : Nat)
    (directory : Option String) (extensions : Option (List String)) (pr : List FileRec)
    (st : List HistoryEntry) :
    scopedPath env qe q topK directory extensions pr st =
        (([] : List FileRec), st) ∨
    ∃ res, scopedPath env qe q topK directory extensions pr st =
        (res, st ++ [semanticEntry q topK directory extensions res]) := by
  simp only [scopedPath]
  by_cases h1 : (List.map (fun r => r.id) pr).isEmpty = true
  · rw [if_pos h1]
    left
    rfl
  · rw [if_neg h1]
    by_cases h2 : (matchedList env pr).isEmpty = true
    · rw [if_pos h2]
      left
      rfl
    · rw [if_neg h2]
      right
      exact ⟨_, rfl⟩

theorem postFilterPath_hist (env : Env) (q : String) (topK : Nat)
    (directory : Option String) (extensions : Option (List String))
    (pr : Option (List FileRec)) (st : List HistoryEntry) (res : List FileRec)
    (st2 : List HistoryEntry)
    (h : postFilterPath env q topK directory extensions pr st = Except.ok (res, st2)) :
    st2 = st ++ [semanticEntry q topK directory extensions res] := by
  unfold postFilterPath at h
  cases hp : postFilterStrategy env q topK directory extensions pr with
  | error e =>
    rw [hp] at h
    rw [except_bind_error] at h
    exact absurd h (by simp)
  | ok r =>
    rw [hp, except_bind_ok] at h
    have h2 : (Except.ok (r, st ++ [semanticEntry q topK directory extensions r]) :
        Except Unit (List FileRec × List HistoryEntry)) = Except.ok (res, st2) := h
    rw [Except.ok.injEq, Prod.mk.injEq] at h2
    rw [← h2.1]
    exact h2.2.symm

theorem searchSemantic_hist (env : Env) (q : String) (topK : Nat)
    (directory : Option String) (extensions : Option (List String))
    (pr : Option (List FileRec)) (st : List HistoryEntry) (res : List FileRec)
    (st2 : List HistoryEntry)
    (h : searchSemantic env q topK directory extensions pr st = Except.ok (res, st2)) :
    (st2 = st ∧ res = []) ∨ ∃ e, st2 = st ++ [e] ∧ e.searchType = "semantic" := by
  unfold searchSemantic at h
  cases hq : env.embedQuery q with
  | error e =>
    rw [hq] at h
    rw [except_bind_error] at h
    exact absurd h (by simp)
  | ok qe =>
    rw [hq, except_bind_ok] at h
    by_cases hg : scopedGuard pr = true
    · rw [if_pos hg] at h
      rcases scopedPath_hist env qe q topK directory extensions (pr.getD []) st with
        hsp | ⟨r, hsp⟩
      · rw [hsp] at h
        have h2 : (Except.ok (([] : List FileRec), st) :
            Except Unit (List FileRec × List HistoryEntry)) = Except.ok (res, st2) := h
        rw [Except.ok.injEq, Prod.mk.injEq] at h2
        exact Or.inl ⟨h2.2.symm, h2.1.symm⟩
      · rw [hsp] at h
        have h2 : (Except.ok (r, st ++ [semanticEntry q topK directory extensions r]) :
            Except Unit (List FileRec × List HistoryEntry)) = Except.ok (res, st2) := h
        rw [Except.ok.injEq, Prod.mk.injEq] at h2
        exact Or.inr ⟨_, h2.2.symm, rfl⟩
    · rw [if_neg hg] at h
      exact Or.inr ⟨_, postFilterPath_hist env q topK directory extensions pr st res st2 h,
        rfl⟩

theorem multiSearch_hist_nonempty (env : Env) (q : String) (directory : Option String)
    (extensions : Option (List String)) (us ul uh : Bool) (topK : Nat)
    (st : List HistoryEntry) (res : List FileRec) (st2 : List HistoryEntry)
    (hbase : multiBase env directory extensions ≠ [])
    (h : multiSearch env q directory extensions us ul uh topK st = Except.ok (res, st2)) :
    ∃ (pre : List HistoryEntry) (results : List FileRec),
      st2 = st ++ pre ++ [multiEntry q directory extensions us ul uh topK results] := by
  have hbe := isEmpty_false_of_ne_nil hbase
  simp only [multiSearch, hbe, Bool.false_eq_true, if_false] at h
  have hllm2 : ∀ st1 : List HistoryEntry, ∃ pre2 : List HistoryEntry,
      (searchLLM env q none none uh (some (multiBase env directory extensions)) st1).2 =
        st1 ++ pre2 := by
    intro st1
    rcases searchLLM_hist env q none none uh (some (multiBase env directory extensions))
        st1 with ⟨_, he⟩ | ⟨_, e, he, _⟩
    · exact ⟨[], by rw [he]; simp⟩
    · exact ⟨[e], he⟩
  cases us with
  | true =>
    rw [if_pos rfl] at h
    cases hs : searchSemantic env q topK none none
        (some (multiBase env directory extensions)) st with
    | error e =>
      rw [hs, except_bind_error] at h
      exact absurd h (by simp)
    | ok p =>
      obtain ⟨sem, st1⟩ := p
      rw [hs, except_bind_ok] at h
      have hpre1 : ∃ pre1 : List HistoryEntry, st1 = st ++ pre1 := by
        rcases searchSemantic_hist env q topK none none
            (some (multiBase env directory extensions)) st sem st1 hs with
          ⟨h1, _⟩ | ⟨e, h1, _⟩
        · exact ⟨[], by rw [h1]; simp⟩
        · exact ⟨[e], h1⟩
      obtain ⟨pre1, hpre1⟩ := hpre1
      cases ul with
      | true =>
        obtain ⟨pre2, hpre2⟩ := hllm2 st1
        simp only [eq_self_iff_true, if_true, Bool.not_true, Bool.false_and,
          Bool.false_eq_true, if_false, except_pure_eq_ok, Except.ok.injEq,
          Prod.mk.injEq] at h
        obtain ⟨h1, h2⟩ := h
        exact ⟨pre1 ++ pre2, _, by
          rw [← h2, hpre2, hpre1, List.append_assoc st pre1 pre2]⟩
      | false =>
        simp only [Bool.false_eq_true, if_false, Bool.not_true, Bool.false_and,
          except_pure_eq_ok, Except.ok.injEq, Prod.mk.injEq] at h
        obtain ⟨h1, h2⟩ := h
        exact ⟨pre1, _, by rw [← h2, hpre1]⟩
  | false =>
    rw [if_neg (by simp)] at h
    rw [except_pure_eq_ok, except_bind_ok] at h
    cases ul with
    | true =>
      obtain ⟨pre2, hpre2⟩ := hllm2 st
      simp only [eq_self_iff_true, if_true, Bool.not_false, Bool.true_and,
        Bool.not_true, Bool.false_eq_true, if_false, except_pure_eq_ok,
        Except.ok.injEq, Prod.mk.injEq] at h
      obtain ⟨h1, h2⟩ := h
      exact ⟨pre2, _, by rw [← h2, hpre2]⟩
    | false =>
      simp only [Bool.false_eq_true, if_false, Bool.not_false, Bool.true_and,
        eq_self_iff_true, if_true, except_pure_eq_ok, Except.ok.injEq,
        Prod.mk.injEq] at h
      obtain ⟨h1, h2⟩ := h
      exact ⟨[], _, by rw [← h2, List.append_nil]⟩

/-- C8 (amended): filter_by_extension always appends exactly one history
entry; search_llm appends exactly one unless its candidate set is empty, in
which case it returns empty with no entry; search_semantic, when it completes,
appends exactly one entry unless the scoped branch exits early (no candidate
ids or no retrievable embeddings), returning empty with no entry;
multi_search appends its own multi entry (after any sub-stage entries) unless
the structural filter is empty, in which case it returns empty with no entry. -/
theorem history_append_policy :
    (∀ (env : Env) exts directory pr st,
      (filterByExtension env exts directory pr st).2 =
        st ++ [extensionEntry exts directory (filterByExtension env exts directory pr st).1])
    ∧ (∀ (env : Env) q directory extensions hard pr st,
        (llmCandidates env directory extensions pr = [] →
          searchLLM env q directory extensions hard pr st = ([], st))
        ∧ (llmCandidates env directory extensions pr ≠ [] →
          ∃ e, (searchLLM env q directory extensions hard pr st).2 = st ++ [e] ∧
            e.searchType = "llm"))
    ∧ (∀ (env : Env) q topK directory extensions pr st res st2,
        searchSemantic env q topK directory extensions pr st = Except.ok (res, st2) →
        (st2 = st ∧ res = []) ∨ ∃ e, st2 = st ++ [e] ∧ e.searchType = "semantic")
    ∧ (∀ (env : Env) q directory extensions us ul uh topK st,
        (multiBase env directory extensions = [] →
          multiSearch env q directory extensions us ul uh topK st = Except.ok ([], st))
        ∧ (∀ res st2, multiBase env directory extensions ≠ [] →
            multiSearch env q directory extensions us ul uh topK st = Except.ok (res, st2) →
            ∃ (pre : List HistoryEntry) (results : List FileRec), st2 = st ++ pre ++
              [multiEntry q directory extensions us ul uh topK results])) := by
  refine ⟨fun env exts directory pr st => rfl, ?_, ?_, ?_⟩
  · intro env q directory extensions hard pr st
    rcases searchLLM_hist env q directory extensions hard pr st with ⟨h1, h2⟩ | ⟨h1, h2⟩
    · exact ⟨fun _ => h2, fun hne => absurd h1 hne⟩
    · exact ⟨fun he => absurd he h1, fun _ => h2⟩
  · exact fun env q topK directory extensions pr st res st2 h =>
      searchSemantic_hist env q topK directory extensions pr st res st2 h
  · intro env q directory extensions us ul uh topK st
    constructor
    · intro hb
      have hbe : (multiBase env directory extensions).isEmpty = true := by
        rw [hb]
        rfl
      simp [multiSearch, hbe, except_pure_eq_ok]
    · exact fun res st2 hbase h =>
        multiSearch_hist_nonempty env q directory extensions us ul uh topK st res st2
          hbase h

/-- C8 counterexample: a multi_search invocation over an empty structural
filter returns without appending any history entry: the history stays empty
instead of growing by one. -/
theorem history_not_always_appended :
    multiSearch envEmptyStore "q" none none true true false 10 [] =
      Except.ok ([], []) ∧
    ([] : List HistoryEntry).length ≠ 0 + 1 :=
  ⟨rfl, by decide⟩

theorem history_append_policy_witness :
    (llmCandidates envEmptyStore none none none = [] ∧
      searchLLM envEmptyStore "q" none none false none [] = ([], [])) ∧
    (llmCandidates envPlain none none none ≠ [] ∧
      ∃ e, (searchLLM envPlain "q" none none false none []).2 = [] ++ [e] ∧
        e.searchType = "llm") ∧
    ((([] : List HistoryEntry) = [] ∧ ([] : List FileRec) = []) ∨
      ∃ e, ([] : List HistoryEntry) = [] ++ [e] ∧ e.searchType = "semantic") ∧
    (multiSearch envEmptyStore "q2" none none true true false 10 [] =
      Except.ok ([], [])) ∧
    (∃ (pre : List HistoryEntry) (results : List FileRec),
      [llmEntry "q" none none false [], multiEntry "q" none none true true false 10 []] =
        ([] : List HistoryEntry) ++ pre ++
          [multiEntry "q" none none true true false 10 results]) := by
  refine ⟨⟨rfl, (history_append_policy.2.1 envEmptyStore "q" none none false none []).1 rfl⟩,
    ⟨by decide, (history_append_policy.2.1 envPlain "q" none none false none []).2
      (by decide)⟩,
    history_append_policy.2.2.1 envPlain "q" 10 none none
      (some [plainRec 1 "a.py" "/a.py"]) [] [] [] rfl,
    (history_append_policy.2.2.2 envEmptyStore "q2" none none true true false 10 []).1 rfl,
    (history_append_policy.2.2.2 envPlain "q" none none true true false 10 []).2 [] _
      (by decide) rfl⟩

theorem llmMergeLoop_take (topK : Nat) :
    ∀ (llm results : List FileRec) (ids : List Nat),
      (llmMergeLoop topK llm ids results).take topK =
        (results ++ specMergeAux llm ids).take topK := by
  intro llm
  induction llm with
  | nil =>
    intro results ids
    simp [llmMergeLoop, specMergeAux]
  | cons r rest ih =>
    intro results ids
    by_cases hc : ids.contains r.id = true
    · simp only [llmMergeLoop, specMergeAux, hc, if_true]
      exact ih results ids
    · have hc' : ids.contains r.id = false := by
        revert hc
        cases ids.contains r.id <;> simp
      by_cases hbr : topK ≤ (results ++ [r]).length
      · simp only [llmMergeLoop, specMergeAux, hc', Bool.false_eq_true, if_false,
          if_pos hbr]
        have hsplit : results ++ r :: specMergeAux rest (r.id :: ids) =
            (results ++ [r]) ++ specMergeAux rest (r.id :: ids) := by
          rw [List.append_assoc]
          rfl
        rw [hsplit, List.take_append_of_le_length hbr]
      · simp only [llmMergeLoop, specMergeAux, hc', Bool.false_eq_true, if_false,
          if_neg hbr]
        rw [ih (results ++ [r]) (r.id :: ids)]
        congr 1
        rw [List.append_assoc]
        rfl

/-- C2: Merge ordering of multi_search. With both stages enabled, the returned
value is the spec merge (all semantic results first in order, then each LLM
result whose record id is not already present, in LLM order) truncated to
top_k; and on the example given in the spec, semantic [A, B] with LLM [B, C, D] merges to
[A, B, C, D] before truncation, with no duplicates. -/
theorem merge_ordering (env : Env) (q : String) (directory : Option String)
    (extensions : Option (List String)) (useHardLlm : Bool) (topK : Nat)
    (st st1 : List HistoryEntry) (sem : List FileRec)
    (hbase : multiBase env directory extensions ≠ [])
    (hsem : searchSemantic env q topK none none (some (multiBase env directory extensions))
        st = Except.ok (sem, st1)) :
    (∃ st2, multiSearch env q directory extensions true true useHardLlm topK st =
        Except.ok ((specMerge sem
          (searchLLM env q none none useHardLlm (some (multiBase env directory extensions))
            st1).1).take topK, st2))
    ∧ llmMergeLoop 10 [recB2, recC2, recD2] ([recA2, recB2].map (fun r => r.id))
        [recA2, recB2] = [recA2, recB2, recC2, recD2]
    ∧ specMerge [recA2, recB2] [recB2, recC2, recD2] = [recA2, recB2, recC2, recD2] := by
  have hbe : (multiBase env directory extensions).isEmpty = false :=
    isEmpty_false_of_ne_nil hbase
  refine ⟨?_, by decide, by decide⟩
  have h1 : multiSearch env q directory extensions true true useHardLlm topK st =
      Except.ok ((llmMergeLoop topK
          (searchLLM env q none none useHardLlm
            (some (multiBase env directory extensions)) st1).1
          (sem.map (fun r => r.id)) sem).take topK,
        (searchLLM env q none none useHardLlm
          (some (multiBase env directory extensions)) st1).2 ++
          [multiEntry q directory extensions true true useHardLlm topK
            (llmMergeLoop topK
              (searchLLM env q none none useHardLlm
                (some (multiBase env directory extensions)) st1).1
              (sem.map (fun r => r.id)) sem)]) := by
    simp only [multiSearch, hbe, Bool.false_eq_true, if_false, if_true, hsem,
      except_bind_ok, Bool.not_true, Bool.false_and]
    rfl
  rw [llmMergeLoop_take] at h1
  exact ⟨_, h1⟩

theorem merge_ordering_witness :
    multiBase envPlain none none ≠ [] ∧
    searchSemantic envPlain "q" 10 none none (some (multiBase envPlain none none)) [] =
      Except.ok ([], []) ∧
    (∃ st2, multiSearch envPlain "q" none none true true false 10 [] =
      Except.ok ((specMerge []
        (searchLLM envPlain "q" none none false (some (multiBase envPlain none none))
          []).1).take 10, st2)) := by
  refine ⟨by decide, rfl, ?_⟩
  exact (merge_ordering envPlain "q" none none false 10 [] [] [] (by decide) rfl).1

/-- C5 (amended): both sub-strategies return results ordered by descending
similarity score, but the tie-break is the insertion order of the searched index,
not a record-id sort imposed by the code. In the scoped sub-strategy ties
follow the position of the candidate in the temporary index (candidate order),
which need not be ascending record id; in the post-filter sub-strategy the
looked-up record id equals the index handle, so ties do come back in
ascending record id there. -/
theorem semantic_ordering_amended :
    (∀ (env : Env) (qe : List Int) (topK : Nat) (pr : List FileRec),
      (pr.map (fun r => r.id)).Nodup →
      (scopedStrategy env qe topK pr).Pairwise (actualOrderScoped env qe pr))
    ∧ (∀ (env : Env) (q : String) (qe : List Int) (topK : Nat)
        (directory : Option String) (extensions : Option (List String))
        (pr : Option (List FileRec)) (res : List FileRec),
        env.embedQuery q = Except.ok qe →
        postFilterStrategy env q topK directory extensions pr = Except.ok res →
        res.Pairwise (orderPost env qe)) :=
  ⟨fun env qe topK pr hnd => scopedStrategy_pairwise env qe topK pr hnd,
   fun env q qe topK directory extensions pr res hq h =>
     postFilter_pairwise env q qe topK directory extensions pr res hq h⟩

theorem semantic_ordering_amended_witness :
    ((prC5.map (fun r => r.id)).Nodup ∧
      (scopedStrategy envC5 [1] 10 prC5).Pairwise (actualOrderScoped envC5 [1] prC5)) ∧
    (envPost.embedQuery "q" = Except.ok [1] ∧
      postFilterStrategy envPost "q" 10 none none none =
        Except.ok [plainRec 0 "a.py" "/a.py"] ∧
      ([plainRec 0 "a.py" "/a.py"] : List FileRec).Pairwise (orderPost envPost [1])) :=
  ⟨⟨by decide, semantic_ordering_amended.1 envC5 [1] 10 prC5 (by decide)⟩,
   ⟨rfl, rfl,
    semantic_ordering_amended.2 envPost "q" [1] 10 none none none
      [plainRec 0 "a.py" "/a.py"] rfl rfl⟩⟩

/-- C5 counterexample: in the scoped sub-strategy, two candidates with equal
similarity score come back in candidate order, not ascending record id. With
candidate list [id 2, id 1] and identical embeddings, search_semantic returns
[id 2, id 1], violating the claimed tie-break by ascending record id. -/
theorem semantic_ordering_cex :
    searchSemantic envC5 "q" 10 none none (some prC5) [] =
      Except.ok ([recB5, recA5], [semanticEntry "q" 10 none none [recB5, recA5]]) ∧
    scoreOfScoped envC5 [1] recB5 = scoreOfScoped envC5 [1] recA5 ∧
    recA5.id < recB5.id ∧
    ¬ (scopedStrategy envC5 [1] 10 prC5).Pairwise (claimOrderScoped envC5 [1]) :=
  ⟨rfl, rfl, by decide, by decide⟩

/-- C9: in the scoped branch a candidate whose embedding_id is NULL is never
matched into the temporary index and never appears in the results; and when no
candidate has both a non-NULL embedding_id and a retrievable embedding, the
matched set is empty, the strategy returns no results, and the stage returns
the empty list without a history entry. -/
theorem scoped_null_embedding_excluded (env : Env) (pr : List FileRec)
    (hnd : (pr.map (fun r => r.id)).Nodup) :
    (∀ r ∈ pr, r.embeddingId = none →
      ¬ r.id ∈ (matchedList env pr).map (fun m => m.2))
    ∧ (∀ qe topK, ∀ x ∈ scopedStrategy env qe topK pr, x.embeddingId.isSome)
    ∧ ((∀ r ∈ pr, r.embeddingId = none ∨ env.embedFile r.absolutePath = none) →
        matchedList env pr = [] ∧
        (∀ qe topK, scopedStrategy env qe topK pr = []) ∧
        (∀ qe q topK directory extensions st,
          scopedPath env qe q topK directory extensions pr st = ([], st))) := by
  refine ⟨?_, ?_, ?_⟩
  · intro r hr hnone hmem
    rcases List.mem_map.1 hmem with ⟨m, hm, hid⟩
    obtain ⟨r2, hr2, hid2, hemb2, _⟩ := matched_mem hm
    have hreq : r = r2 := List.inj_on_of_nodup_map hnd hr hr2 (by rw [hid2, hid])
    rw [hreq] at hnone
    rw [hnone] at hemb2
    exact absurd hemb2 (by simp)
  · intro qe topK x hx
    simp only [scopedStrategy] at hx
    rcases List.mem_filterMap.1 hx with ⟨p, _, hg⟩
    cases hm : (matchedList env pr).get? p.1 with
    | none =>
      rw [hm] at hg
      exact absurd hg (by simp)
    | some m =>
      rw [hm] at hg
      simp only [Option.some_bind] at hg
      have hxid : x.id = m.2 := by
        have h2 := List.find?_some hg
        rwa [beq_iff_eq] at h2
      have hxmem : x ∈ pr := List.mem_of_find?_eq_some hg
      obtain ⟨r2, hr2, hid2, hemb2, _⟩ := matched_mem (List.get?_mem hm)
      have hreq : x = r2 := List.inj_on_of_nodup_map hnd hxmem hr2 (by rw [hxid, hid2])
      rw [hreq]
      exact hemb2
  · intro hall
    have hm : matchedList env pr = [] := by
      unfold matchedList
      rw [List.filterMap_eq_nil_iff]
      intro r hr
      rcases hall r hr with h | h
      · rw [h]
        rfl
      · by_cases he : r.embeddingId.isSome
        · rw [if_pos he, h]
          rfl
        · rw [if_neg he]
    refine ⟨hm, ?_, ?_⟩
    · intro qe topK
      simp [scopedStrategy, hm, faissSearch, sortRanked]
    · intro qe q topK directory extensions st
      simp only [scopedPath, hm]
      by_cases h1 : (List.map (fun r => r.id) pr).isEmpty = true
      · rw [if_pos h1]
      · rw [if_neg h1]
        simp

theorem scoped_null_embedding_excluded_witness :
    (pr9.map (fun r => r.id)).Nodup ∧
    (∀ r ∈ pr9, r.embeddingId = none ∨ env9.embedFile r.absolutePath = none) ∧
    ¬ (plainRec 1 "a.py" "/a.py").id ∈ (matchedList env9 pr9).map (fun m => m.2) ∧
    matchedList env9 pr9 = [] ∧
    scopedStrategy env9 [1] 10 pr9 = [] ∧
    scopedPath env9 [1] "q" 10 none none pr9 [] = ([], []) := by
  refine ⟨by decide, by decide, ?_, ?_, ?_, ?_⟩
  · exact (scoped_null_embedding_excluded env9 pr9 (by decide)).1 _
      (by decide) rfl
  · exact ((scoped_null_embedding_excluded env9 pr9 (by decide)).2.2 (by decide)).1
  · exact ((scoped_null_embedding_excluded env9 pr9 (by decide)).2.2 (by decide)).2.1 [1] 10
  · exact ((scoped_null_embedding_excluded env9 pr9 (by decide)).2.2
      (by decide)).2.2 [1] "q" 10 none none []

/-- C10: EmbedderRegistry is a process-wide singleton. Construction returns
the same instance every time and leaves the world unchanged once initialized,
so a register performed through any constructed instance is visible to
get_for_file through any other, and the extension map persists across
constructions. -/
theorem registry_singleton :
    (∀ w : RegistryWorld, (newRegistry (newRegistry w).1).2 = (newRegistry w).2)
    ∧ (∀ w : RegistryWorld, (newRegistry (newRegistry w).1).1 = (newRegistry w).1)
    ∧ (∀ (w : RegistryWorld) (emb : Embedder) (nm : Option String) (filePath : String),
        (newRegistry (registerEmbedder (newRegistry w).1 (newRegistry w).2 emb nm)).2 =
          (newRegistry w).2 ∧
        getForFile
            (newRegistry (registerEmbedder (newRegistry w).1 (newRegistry w).2 emb nm)).1
            (newRegistry (registerEmbedder (newRegistry w).1 (newRegistry w).2 emb nm)).2
            filePath =
          getForFile (registerEmbedder (newRegistry w).1 (newRegistry w).2 emb nm)
            (newRegistry w).2 filePath) := by
  refine ⟨?_, ?_, ?_⟩
  · intro w
    cases hw : w.instanceAddr with
    | none => simp [newRegistry, hw]
    | some a => simp [newRegistry, hw]
  · intro w
    cases hw : w.instanceAddr with
    | none => simp [newRegistry, hw]
    | some a => simp [newRegistry, hw]
  · intro w emb nm filePath
    cases hw : w.instanceAddr with
    | none =>
      constructor
      · simp [newRegistry, hw, registerEmbedder, heapSet]
      · simp [newRegistry, hw, registerEmbedder, heapSet]
    | some a =>
      constructor
      · simp [newRegistry, hw, registerEmbedder, heapSet]
      · simp [newRegistry, hw, registerEmbedder, heapSet]

theorem llm_failure_degrades_witness :
    (∀ hard prompt, envPlain.llmComplete hard prompt = none) ∧
    multiBase envPlain none none ≠ [] ∧
    searchSemantic envPlain "q" 10 none none (some (multiBase envPlain none none)) [] =
      Except.ok ([], []) ∧
    (∃ st2, multiSearch envPlain "q" none none true true false 10 [] =
      Except.ok (([] : List FileRec).take 10, st2)) := by
  refine ⟨fun _ _ => rfl, by decide, rfl, ?_⟩
  exact (llm_failure_degrades envPlain "q" none none false 10 [] [] []
    (fun _ _ => rfl) (by decide) rfl).1

end Lfind
